import Mathlib

/-
Shallow embedding of the NidanaMap diagnosis-mapping pipeline (src/app.py).

The repository glues three external libraries behind a web form:
a trained code embedder (icdcodex), a fuzzy string matcher (rapidfuzz)
and a code-description lookup (icd10).  The original logic embedded here is:

  * `preprocess_input`  — text normalisation (lowercase, strip special
    characters, collapse whitespace, lemmatise each token, rejoin);
  * `find_icd_with_embedding` — fuzzy match of a query against the
    description column of the reference table, top-k selection, and
    assembly of the result records with their justification strings;
  * the reference-table construction loop that builds `icd_ref`;
  * `process_diagnosis` — the request handler gluing the above.

External collaborators are modelled as explicit function parameters, in the
spirit of the code itself (they are process-wide globals there):

  * the WordNet lemmatiser (`nltk.stem.WordNetLemmatizer.lemmatize`) becomes
    a parameter `lemmatizer : String → String`;
  * the trained embedder (`icd2vec.Icd2Vec.to_vec`) becomes a parameter
    `embedder : String → List ℚ`;
  * the description lookup (`icd10.find`) becomes a parameter
    `find : String → Except Unit (Option String)` — `.error` models a raised
    exception, `.ok none` models a `None` result (code not found), and
    `.ok (some d)` a found object with description `d`.

Machine floats are modelled as exact rationals (ℚ).  Strings are processed
at the level of their character lists.  Python's `\s` and `str.strip`
whitespace class is modelled by its ASCII part; a non-ASCII whitespace
character is turned into a single space by the substitution pass either way,
so the final normalised text is unaffected by this choice.
-/

namespace NidanaMap

/-! ## Character classes -/

/-- Whitespace characters as matched by Python's regex class and by
`str.strip` (ASCII part, see the header comment). -/
def isPySpace (c : Char) : Bool :=
  c = ' ' || c = '\t' || c = '\n' || c = '\r' || c = '\x0b' || c = '\x0c'

/-- Characters that survive the substitution `re.sub(r'[^a-z0-9\s\-]', ' ', text)`
aside from whitespace: lowercase ASCII letters, ASCII digits, and the hyphen. -/
def isTokenChar (c : Char) : Bool :=
  ('a' ≤ c && c ≤ 'z') || ('0' ≤ c && c ≤ '9') || c = '-'

/-- Characters kept unchanged by `re.sub(r'[^a-z0-9\s\-]', ' ', text)`. -/
def isKeepChar (c : Char) : Bool :=
  isTokenChar c || isPySpace c

/-- Model of `str.lower` on one character (ASCII range; a non-ASCII uppercase
letter is replaced by a space in the subsequent substitution pass whether or
not it is lowercased first, so the pipeline output is unaffected). -/
def py_lower_char (c : Char) : Char :=
  if 'A' ≤ c ∧ c ≤ 'Z' then Char.ofNat (c.toNat + 32) else c

/-! ## The normalisation pipeline of `preprocess_input`, stage by stage -/

/-- Stage `text = text.lower()`. -/
def lower_chars (l : List Char) : List Char :=
  l.map py_lower_char

/-- Stage `text = re.sub(r'[^a-z0-9\s\-]', ' ', text)`. -/
def sub_chars (l : List Char) : List Char :=
  l.map (fun c => if isKeepChar c then c else ' ')

/-- Stage `re.sub(r'\s+', ' ', text)`: each maximal run of whitespace
characters becomes one space. -/
def collapse_chars : List Char → List Char
  | [] => []
  | [c] => if isPySpace c then [' '] else [c]
  | c :: d :: rest =>
    if isPySpace c && isPySpace d then collapse_chars (d :: rest)
    else (if isPySpace c then ' ' else c) :: collapse_chars (d :: rest)

/-- Stage `.strip()`: drop leading and trailing whitespace. -/
def strip_chars (l : List Char) : List Char :=
  ((l.dropWhile isPySpace).reverse.dropWhile isPySpace).reverse

/-- Helper for `words_chars`: split on whitespace, accumulating the current
token in reverse. -/
def words_aux : List Char → List Char → List (List Char)
  | [], acc => if acc.isEmpty then [] else [acc.reverse]
  | c :: cs, acc =>
    if isPySpace c then
      if acc.isEmpty then words_aux cs []
      else acc.reverse :: words_aux cs []
    else words_aux cs (c :: acc)

/-- Whitespace tokenisation.  Models `nltk.word_tokenize` on the already
cleaned text (which contains only `[a-z0-9\- ]`), where it reduces to
splitting on spaces, exactly as §4.1 of the design describes ("split on
whitespace into tokens"); also models the whitespace tokenisation that
`rapidfuzz`'s token-sort scorer applies internally. -/
def words_chars (l : List Char) : List (List Char) :=
  words_aux l []

/-- Model of `' '.join(tokens)` at the character level. -/
def join_chars : List (List Char) → List Char
  | [] => []
  | [t] => t
  | t :: ts => t ++ ' ' :: join_chars ts

/-- Embedding of `preprocess_input` (src/app.py lines 88–105): lowercase,
replace special characters by spaces, collapse whitespace and strip,
tokenise, lemmatise each token with the external lemmatiser, and rejoin
with single spaces.  The `isinstance(text, str)` guard is vacuous here
because the argument is a `String` by type. -/
def preprocess_input (lemmatizer : String → String) (text : String) : String :=
  let cleaned := strip_chars (collapse_chars (sub_chars (lower_chars text.data)))
  let tokens := words_chars cleaned
  let lemmatized := tokens.map (fun w => (lemmatizer (String.mk w)).data)
  String.mk (join_chars lemmatized)

/-! ## The fuzzy scorer (`rapidfuzz.fuzz.token_sort_ratio`) -/

/-- Length of a longest common subsequence of two character lists. -/
def lcs_len : List Char → List Char → Nat
  | [], _ => 0
  | _ :: _, [] => 0
  | a :: as, b :: bs =>
    if a = b then lcs_len as bs + 1
    else max (lcs_len (a :: as) bs) (lcs_len as (b :: bs))
termination_by x y => x.length + y.length
decreasing_by all_goals simp_wf <;> omega

/-- Normalised Indel similarity on a 0–100 scale, the metric behind
`rapidfuzz.fuzz.ratio`: `100 * (1 - dist / (m + n))` with
`dist = m + n - 2 * lcs`.  Two empty strings score 100. -/
def indel_sim (a b : List Char) : ℚ :=
  if a.length + b.length = 0 then 100
  else 100 * (2 * lcs_len a b) / ((a.length : ℚ) + (b.length : ℚ))

/-- Token-sort preparation: split on whitespace, sort the tokens
lexicographically, rejoin with single spaces.  The sort is a stable
insertion sort (kernel-computable; any stable sort gives the same list). -/
def token_sort_join (s : String) : List Char :=
  join_chars
    ((List.insertionSort (fun a b : String => a ≤ b)
        ((words_chars s.data).map String.mk)).map String.data)

/-- Embedding of `fuzz.token_sort_ratio` (the `scorer` passed to
`process.extract` in src/app.py line 69). -/
def token_sort_score (q d : String) : ℚ :=
  indel_sim (token_sort_join q) (token_sort_join d)

/-! ## Rounding and float formatting -/

/-- Rounding to the nearest integer, ties to even — the rounding mode of
Python's built-in `round`. -/
def round_half_even (q : ℚ) : ℤ :=
  if q - ⌊q⌋ < 1/2 then ⌊q⌋
  else if 1/2 < q - ⌊q⌋ then ⌊q⌋ + 1
  else if ⌊q⌋ % 2 = 0 then ⌊q⌋ else ⌊q⌋ + 1

/-- Model of Python's `round(x, 5)`: round to 5 decimal places. -/
def py_round5 (q : ℚ) : ℚ :=
  (round_half_even (q * 100000) : ℚ) / 100000

/-- Fractional decimal digits of `num / den` (with `num < den`), at most
`fuel` of them, dropping the trailing zero tail. -/
def frac_digits : Nat → Nat → Nat → List Char
  | 0, _, _ => []
  | _ + 1, 0, _ => []
  | fuel + 1, num, den =>
    let num' := num * 10
    Char.ofNat (48 + num' / den) :: frac_digits fuel (num' % den) den

/-- Model of the Python f-string rendering `f"{score}"` of a (nonnegative)
float: integral values print with a trailing `.0`, other values print their
decimal expansion (17 digits at most, the precision of shortest round-trip
`repr` for doubles). -/
def format_float (q : ℚ) : String :=
  if q.den = 1 then toString q.num ++ ".0"
  else
    let ip := ⌊q⌋
    let fr := q - (ip : ℚ)
    toString ip ++ "." ++ String.mk (frac_digits 17 fr.num.toNat fr.den)

/-- Zero-padding a natural number to five digits. -/
def pad5 (n : Nat) : String :=
  let s := toString n
  String.mk (List.replicate (5 - s.length) '0') ++ s

/-- Model of the Python format spec `{x:.5f}` used in `format_results`
(nonnegative case): fixed-point with exactly five fractional digits. -/
def format_fixed5 (q : ℚ) : String :=
  let n := round_half_even (q * 100000)
  toString (n / 100000) ++ "." ++ pad5 (n % 100000).toNat

/-! ## Data model -/

/-- One row of the reference table `icd_ref` (a pandas DataFrame with
columns `code` and `description` in the source). -/
structure RefEntry where
  code : String
  description : String
deriving DecidableEq

/-- One element of the list returned by `find_icd_with_embedding`
(a Python dict with these four keys in the source). -/
structure MatchResult where
  icd_code : String
  icd_description : String
  text_score : ℚ
  justification : String
deriving DecidableEq

/-! ## The matcher -/

/-- Embedding of `rapidfuzz.process.extract(diagnosis, ref_df['description'],
scorer=fuzz.token_sort_ratio, limit=top_k)` (src/app.py lines 66–71): score
every description against the query, sort by score in descending order
(stably, so equal scores keep the row order), and keep the best `limit`.
Each returned triple is `(choice, score, key)` exactly as in rapidfuzz,
where `key` is the row index of the pandas Series. -/
def extract (query : String) (ref : List RefEntry) (limit : Nat) :
    List (String × ℚ × Nat) :=
  let scored := ref.enum.map
    (fun p => (p.2.description, token_sort_score query p.2.description, p.1))
  (List.insertionSort (fun x y : String × ℚ × Nat => y.2.1 ≤ x.2.1)
    scored).take limit

/-- Embedding of `find_icd_with_embedding` (src/app.py lines 65–82).
The per-candidate embedding vector `vec_diag` is computed (here: bound)
but never used, exactly as in the source. -/
def find_icd_with_embedding (embedder : String → List ℚ) (diagnosis : String)
    (ref_df : List RefEntry) (top_k : Nat) : List MatchResult :=
  let candidates := extract diagnosis ref_df top_k
  candidates.map (fun c =>
    let code := (ref_df.getD c.2.2 ⟨"", ""⟩).code
    let _vec_diag := embedder code
    { icd_code := code
      icd_description := c.1
      text_score := py_round5 c.2.1
      justification := "Matched '" ++ c.1 ++ "' (" ++ format_float c.2.1
        ++ "%) based on fuzzy logic and ICD-10 vector proximity." })

/-! ## Reference-table construction -/

/-- The description actually stored for a code, given the outcome of
`icd10.find`: a raised exception (`.error`) or a `None` result (`.ok none`)
degrades to the empty string, per the `try/except` in src/app.py
lines 55–59. -/
def desc_of : Except Unit (Option String) → String
  | .error _ => ""
  | .ok none => ""
  | .ok (some d) => d

/-- Embedding of the reference-table construction loop (src/app.py
lines 53–62): every code in the code list yields a row, with the
description degraded to `""` on any lookup failure. -/
def icd_ref (find : String → Except Unit (Option String))
    (codes : List String) : List RefEntry :=
  codes.map (fun code => ⟨code, desc_of (find code)⟩)

/-! ## The request handler -/

/-- The user-visible rejection message for blank input (src/app.py
line 122, byte-for-byte, including the mojibake of the marker glyph as it
sits in the file). -/
def rejection_message : String :=
  "‚ùå Please enter a diagnosis to search."

/-- Embedding of `format_results` (src/app.py lines 107–118). -/
def format_results (diagnosis : String) (ms : List MatchResult) : String :=
  ms.foldl
    (fun acc m => acc
      ++ "\n**ICD-10 Code:** `" ++ m.icd_code
      ++ "`  \n**Description:** " ++ m.icd_description
      ++ "  \n**Fuzzy Score:** `" ++ format_fixed5 m.text_score
      ++ "`  \n**Justification:** " ++ m.justification ++ "\n\n---\n")
    ("### üìã Results for: **" ++ diagnosis ++ "**\n\n")

/-- Embedding of `process_diagnosis` (src/app.py lines 120–128), with the
external lemmatiser and the matcher as parameters (the source reaches them
as globals; `find_icd_with_embedding` itself closes over the global
`embedder` and is handed the global `icd_ref`). -/
def process_diagnosis (lemmatizer : String → String)
    (matcher : String → List RefEntry → Nat → List MatchResult)
    (ref : List RefEntry) (input_text : String) : String :=
  if String.mk (strip_chars input_text.data) = "" then rejection_message
  else
    let initial_input := String.mk (strip_chars input_text.data)
    let cleaned_input := preprocess_input lemmatizer initial_input
    let ms := matcher cleaned_input ref 3
    format_results initial_input ms

/-! ## Character-class lemmas -/

lemma isPySpace_eq_false_of_token {c : Char} (h : isTokenChar c = true) :
    isPySpace c = false := by
  by_contra hs
  rw [Bool.not_eq_false] at hs
  simp only [isPySpace, Bool.or_eq_true, decide_eq_true_eq] at hs
  rcases hs with ((((h1 | h1) | h1) | h1) | h1) | h1 <;> subst h1 <;>
    revert h <;> decide

lemma py_lower_char_token {c : Char} (h : isTokenChar c = true) :
    py_lower_char c = c := by
  unfold py_lower_char
  rw [if_neg]
  rintro ⟨h1, h2⟩
  simp only [isTokenChar, Bool.or_eq_true, Bool.and_eq_true, decide_eq_true_eq] at h
  rcases h with (⟨ha, _⟩ | ⟨_, hb⟩) | hc
  · exact absurd (le_trans ha h2) (by decide)
  · exact absurd (le_trans h1 hb) (by decide)
  · subst hc; exact absurd h1 (by decide)

lemma py_lower_char_space : py_lower_char ' ' = ' ' := by decide

lemma isKeepChar_of_token {c : Char} (h : isTokenChar c = true) :
    isKeepChar c = true := by
  simp [isKeepChar, h]

lemma space_of_isPySpace_token {c : Char} (h : isTokenChar c = true ∨ c = ' ')
    (hs : isPySpace c = true) : c = ' ' := by
  rcases h with h | h
  · rw [isPySpace_eq_false_of_token h] at hs; cases hs
  · exact h

/-! ## Generic list helpers -/

lemma map_id_of_mem {α : Type} {l : List α} {f : α → α}
    (h : ∀ x ∈ l, f x = x) : l.map f = l :=
  (List.map_congr_left h).trans l.map_id

lemma dropWhile_eq_self_of_head {p : Char → Bool} {l : List Char}
    (h : ∀ c ∈ l.head?, p c = false) : l.dropWhile p = l := by
  cases l with
  | nil => rfl
  | cons a t =>
    have := h a (by simp)
    simp [List.dropWhile_cons, this]

/-! ## Facts about `join_chars` -/

lemma mem_join_chars {ts : List (List Char)} {c : Char}
    (h : c ∈ join_chars ts) : (∃ t ∈ ts, c ∈ t) ∨ c = ' ' := by
  induction ts with
  | nil => simp [join_chars] at h
  | cons t ts ih =>
    cases ts with
    | nil =>
      simp only [join_chars] at h
      exact Or.inl ⟨t, by simp, h⟩
    | cons t2 ts2 =>
      simp only [join_chars, List.mem_append, List.mem_cons] at h
      rcases h with h | h | h
      · exact Or.inl ⟨t, by simp, h⟩
      · exact Or.inr h
      · rcases ih h with ⟨u, hu, hcu⟩ | h
        · exact Or.inl ⟨u, by simp [hu], hcu⟩
        · exact Or.inr h

lemma join_chars_ne_nil {t : List Char} {ts : List (List Char)} (h : t ≠ []) :
    join_chars (t :: ts) ≠ [] := by
  cases ts with
  | nil => simpa [join_chars] using h
  | cons t2 ts2 =>
    cases t with
    | nil => exact absurd rfl h
    | cons x t => simp [join_chars]

lemma head_mem_join_chars {t : List Char} {ts : List (List Char)} (h : t ≠ [])
    {c : Char} (hc : c ∈ (join_chars (t :: ts)).head?) : c ∈ t := by
  cases t with
  | nil => exact absurd rfl h
  | cons x t' =>
    cases ts with
    | nil => simp only [join_chars, List.head?_cons, Option.mem_def,
        Option.some.injEq] at hc; simp [hc]
    | cons t2 ts2 =>
      simp only [join_chars, List.cons_append, List.head?_cons,
        Option.mem_def, Option.some.injEq] at hc
      simp [hc]

lemma getLast_mem_join_chars {ts : List (List Char)}
    (hne : ∀ t ∈ ts, t ≠ []) {c : Char}
    (hc : c ∈ (join_chars ts).getLast?) : ∃ t ∈ ts, c ∈ t := by
  induction ts with
  | nil => simp [join_chars] at hc
  | cons t ts ih =>
    cases ts with
    | nil =>
      refine ⟨t, by simp, ?_⟩
      simp only [join_chars] at hc
      exact List.mem_of_getLast?_eq_some hc
    | cons t2 ts2 =>
      have h2 : join_chars (t2 :: ts2) ≠ [] :=
        join_chars_ne_nil (hne t2 (by simp))
      cases hj : join_chars (t2 :: ts2) with
      | nil => exact absurd hj h2
      | cons x xs =>
        simp only [join_chars, hj, List.getLast?_append,
          List.getLast?_cons_cons, Option.mem_def] at hc
        have hcx : c ∈ (x :: xs).getLast? := by
          cases hg : (x :: xs).getLast? with
          | none =>
            exact absurd hg (by simp [List.getLast?_eq_getLast])
          | some d =>
            rw [hg] at hc
            simp only [Option.or_some, Option.some.injEq] at hc
            simp [hg, hc]
        obtain ⟨u, hu, hcu⟩ := ih (fun x hx => hne x (by simp [hx]))
          (by rw [hj]; exact hcx)
        exact ⟨u, by simp [hu], hcu⟩

lemma chain'_of_no_space {R : Char → Char → Prop} {l : List Char}
    (hR : ∀ a b, isPySpace a = false → R a b)
    (h : ∀ c ∈ l, isPySpace c = false) : List.Chain' R l := by
  induction l with
  | nil => exact List.chain'_nil
  | cons a t ih =>
    rw [List.chain'_cons']
    exact ⟨fun y _ => hR a y (h a (by simp)),
      ih (fun c hc => h c (by simp [hc]))⟩

lemma join_chars_chain {ts : List (List Char)}
    (hne : ∀ t ∈ ts, t ≠ [])
    (htok : ∀ t ∈ ts, ∀ c ∈ t, isPySpace c = false) :
    List.Chain' (fun a b => isPySpace a = false ∨ isPySpace b = false)
      (join_chars ts) := by
  induction ts with
  | nil => exact List.chain'_nil
  | cons t ts ih =>
    cases ts with
    | nil =>
      simp only [join_chars]
      exact chain'_of_no_space (fun a b ha => Or.inl ha)
        (htok t (by simp))
    | cons t2 ts2 =>
      show List.Chain' _ (t ++ ' ' :: join_chars (t2 :: ts2))
      rw [List.chain'_append]
      refine ⟨chain'_of_no_space (fun a b ha => Or.inl ha) (htok t (by simp)),
        ?_, ?_⟩
      · rw [List.chain'_cons']
        refine ⟨?_, ih (fun x hx => hne x (by simp [hx]))
          (fun x hx => htok x (by simp [hx]))⟩
        intro y hy
        have hyt2 : y ∈ t2 :=
          head_mem_join_chars (hne t2 (by simp)) hy
        exact Or.inr (htok t2 (by simp) y hyt2)
      · intro x hx y hy
        exact Or.inl
          (htok t (by simp) x (List.mem_of_getLast?_eq_some hx))

/-! ## Identity of the pipeline stages on already-normalised text -/

lemma collapse_chars_eq_self {l : List Char}
    (hch : List.Chain' (fun a b => isPySpace a = false ∨ isPySpace b = false) l)
    (hsp : ∀ c ∈ l, isPySpace c = true → c = ' ') :
    collapse_chars l = l := by
  induction l with
  | nil => rfl
  | cons c rest ih =>
    cases rest with
    | nil =>
      by_cases h : isPySpace c = true
      · have hc := hsp c (by simp) h
        subst hc
        simp [collapse_chars, h]
      · rw [Bool.not_eq_true] at h
        simp [collapse_chars, h]
    | cons d rest2 =>
      have hcd : isPySpace c = false ∨ isPySpace d = false :=
        (List.chain'_cons.mp hch).1
      have hch2 := (List.chain'_cons.mp hch).2
      have hcond : (isPySpace c && isPySpace d) = false := by
        rcases hcd with h | h <;> simp [h]
      have htail := ih hch2 (fun x hx hs => hsp x (by simp [hx]) hs)
      show (if isPySpace c && isPySpace d then collapse_chars (d :: rest2)
        else (if isPySpace c then ' ' else c) :: collapse_chars (d :: rest2))
          = c :: d :: rest2
      rw [hcond]
      simp only [Bool.false_eq_true, if_false, htail]
      by_cases h : isPySpace c = true
      · rw [if_pos h, hsp c (by simp) h]
      · rw [Bool.not_eq_true] at h
        simp [h]

lemma strip_chars_eq_self {l : List Char}
    (h1 : ∀ c ∈ l.head?, isPySpace c = false)
    (h2 : ∀ c ∈ l.getLast?, isPySpace c = false) :
    strip_chars l = l := by
  unfold strip_chars
  rw [dropWhile_eq_self_of_head h1]
  rw [dropWhile_eq_self_of_head (by simpa [List.head?_reverse] using h2)]
  exact List.reverse_reverse l

lemma words_aux_append {t : List Char} (ht : ∀ c ∈ t, isPySpace c = false) :
    ∀ (rest acc : List Char),
      words_aux (t ++ rest) acc = words_aux rest (t.reverse ++ acc) := by
  induction t with
  | nil => intro rest acc; simp
  | cons c t ih =>
    intro rest acc
    have hc := ht c (by simp)
    show (if isPySpace c then _ else words_aux (t ++ rest) (c :: acc)) = _
    rw [hc]
    simp only [Bool.false_eq_true, if_false]
    rw [ih (fun x hx => ht x (by simp [hx])) rest (c :: acc)]
    congr 1
    simp

lemma words_chars_join {ts : List (List Char)}
    (hne : ∀ t ∈ ts, t ≠ [])
    (htok : ∀ t ∈ ts, ∀ c ∈ t, isPySpace c = false) :
    words_chars (join_chars ts) = ts := by
  induction ts with
  | nil => rfl
  | cons t ts ih =>
    have htr : t.reverse.isEmpty = false := by
      simp [List.isEmpty_iff, hne t (by simp)]
    cases ts with
    | nil =>
      show words_aux (join_chars [t]) [] = [t]
      have : join_chars [t] = t ++ [] := by simp [join_chars]
      rw [this, words_aux_append (htok t (by simp)) [] []]
      show (if (t.reverse ++ []).isEmpty then ([] : List (List Char))
        else [(t.reverse ++ []).reverse]) = [t]
      simp [htr, List.isEmpty_iff, hne t (by simp)]
    | cons t2 ts2 =>
      show words_aux (t ++ ' ' :: join_chars (t2 :: ts2)) [] = t :: t2 :: ts2
      rw [words_aux_append (htok t (by simp)) _ []]
      have hsp' : isPySpace ' ' = true := by decide
      simp only [words_aux, hsp', if_true, List.append_nil, htr,
        Bool.false_eq_true, if_false, List.reverse_reverse]
      have hrest := ih (fun x hx => hne x (by simp [hx]))
        (fun x hx => htok x (by simp [hx]))
      exact congrArg (t :: ·) hrest

lemma words_aux_ne_nil :
    ∀ (l acc : List Char), ∀ t ∈ words_aux l acc, t ≠ [] := by
  intro l
  induction l with
  | nil =>
    intro acc t ht
    by_cases h : acc.isEmpty
    · simp [words_aux, h] at ht
    · rw [Bool.not_eq_true] at h
      simp only [words_aux, h, Bool.false_eq_true, if_false,
        List.mem_singleton] at ht
      subst ht
      simp only [ne_eq, List.reverse_eq_nil_iff]
      exact fun hacc => by simp [hacc] at h
  | cons c cs ih =>
    intro acc t ht
    by_cases hc : isPySpace c = true
    · by_cases h : acc.isEmpty
      · simp only [words_aux, hc, if_true, h] at ht
        exact ih [] t ht
      · rw [Bool.not_eq_true] at h
        simp only [words_aux, hc, if_true, h, Bool.false_eq_true, if_false,
          List.mem_cons] at ht
        rcases ht with ht | ht
        · subst ht
          simp only [ne_eq, List.reverse_eq_nil_iff]
          exact fun hacc => by simp [hacc] at h
        · exact ih [] t ht
    · rw [Bool.not_eq_true] at hc
      simp only [words_aux, hc, Bool.false_eq_true, if_false] at ht
      exact ih (c :: acc) t ht

lemma words_chars_ne_nil {l : List Char} : ∀ t ∈ words_chars l, t ≠ [] :=
  fun t ht => words_aux_ne_nil l [] t ht

/-- The full cleaning pipeline of `preprocess_input` maps the join of a list
of nonempty tokens over the kept character class back to exactly that token
list. -/
lemma pipeline_tokens_join {ts : List (List Char)}
    (hne : ∀ t ∈ ts, t ≠ [])
    (htok : ∀ t ∈ ts, ∀ c ∈ t, isTokenChar c = true) :
    words_chars (strip_chars (collapse_chars (sub_chars
      (lower_chars (join_chars ts))))) = ts := by
  have hsp : ∀ t ∈ ts, ∀ c ∈ t, isPySpace c = false :=
    fun t ht c hc => isPySpace_eq_false_of_token (htok t ht c hc)
  have hchars : ∀ c ∈ join_chars ts, isTokenChar c = true ∨ c = ' ' := by
    intro c hc
    rcases mem_join_chars hc with ⟨t, ht, hct⟩ | h
    · exact Or.inl (htok t ht c hct)
    · exact Or.inr h
  have h1 : lower_chars (join_chars ts) = join_chars ts := by
    apply map_id_of_mem
    intro c hc
    rcases hchars c hc with h | h
    · exact py_lower_char_token h
    · rw [h]; exact py_lower_char_space
  have h2 : sub_chars (join_chars ts) = join_chars ts := by
    apply map_id_of_mem
    intro c hc
    rcases hchars c hc with h | h
    · rw [if_pos (isKeepChar_of_token h)]
    · rw [h, if_pos (by decide)]
  have h3 : collapse_chars (join_chars ts) = join_chars ts := by
    apply collapse_chars_eq_self (join_chars_chain hne hsp)
    intro c hc hcs
    exact space_of_isPySpace_token (hchars c hc) hcs
  have h4 : strip_chars (join_chars ts) = join_chars ts := by
    apply strip_chars_eq_self
    · intro c hc
      cases ts with
      | nil => simp [join_chars] at hc
      | cons t ts' =>
        exact hsp t (by simp) c (head_mem_join_chars (hne t (by simp)) hc)
    · intro c hc
      obtain ⟨t, ht, hct⟩ := getLast_mem_join_chars hne hc
      exact hsp t ht c hct
  rw [h1, h2, h3, h4]
  exact words_chars_join hne hsp

/-! ## Bounds of the fuzzy score -/

lemma lcs_len_le (a b : List Char) :
    lcs_len a b ≤ a.length ∧ lcs_len a b ≤ b.length := by
  induction a, b using lcs_len.induct with
  | case1 b => simp [lcs_len]
  | case2 c cs => simp [lcs_len]
  | case3 xs y ys ih =>
    rw [show lcs_len (y :: xs) (y :: ys) = lcs_len xs ys + 1 from by
      rw [lcs_len]; simp]
    simp only [List.length_cons]
    omega
  | case4 x xs y ys h ih1 ih2 =>
    rw [show lcs_len (x :: xs) (y :: ys)
        = max (lcs_len (x :: xs) ys) (lcs_len xs (y :: ys)) from by
      rw [lcs_len]; simp [h]]
    simp only [List.length_cons] at *
    omega

lemma indel_sim_bounds (a b : List Char) :
    0 ≤ indel_sim a b ∧ indel_sim a b ≤ 100 := by
  unfold indel_sim
  split_ifs with h
  · norm_num
  · have hpos : 0 < (a.length : ℚ) + (b.length : ℚ) := by
      have hn : 0 < a.length + b.length := Nat.pos_of_ne_zero h
      exact_mod_cast hn
    constructor
    · apply div_nonneg _ (le_of_lt hpos)
      positivity
    · rw [div_le_iff₀ hpos]
      have h1 := (lcs_len_le a b).1
      have h2 := (lcs_len_le a b).2
      have hq1 : (lcs_len a b : ℚ) ≤ (a.length : ℚ) := by exact_mod_cast h1
      have hq2 : (lcs_len a b : ℚ) ≤ (b.length : ℚ) := by exact_mod_cast h2
      nlinarith

lemma token_sort_score_bounds (q d : String) :
    0 ≤ token_sort_score q d ∧ token_sort_score q d ≤ 100 :=
  indel_sim_bounds _ _

/-! ## Rounding lemmas -/

lemma round_half_even_ge_floor (q : ℚ) : ⌊q⌋ ≤ round_half_even q := by
  unfold round_half_even
  split_ifs <;> omega

lemma round_half_even_le_floor_succ (q : ℚ) : round_half_even q ≤ ⌊q⌋ + 1 := by
  unfold round_half_even
  split_ifs <;> omega

lemma round_half_even_intCast (n : ℤ) : round_half_even (n : ℚ) = n := by
  unfold round_half_even
  rw [Int.floor_intCast]
  norm_num

lemma round_half_even_mono {q r : ℚ} (h : q ≤ r) :
    round_half_even q ≤ round_half_even r := by
  rcases lt_or_le ⌊q⌋ ⌊r⌋ with hf | hf
  · calc round_half_even q ≤ ⌊q⌋ + 1 := round_half_even_le_floor_succ q
      _ ≤ ⌊r⌋ := by omega
      _ ≤ round_half_even r := round_half_even_ge_floor r
  · have hf' : ⌊q⌋ = ⌊r⌋ := le_antisymm (Int.floor_le_floor h) hf
    have hqr : q - (⌊r⌋ : ℚ) ≤ r - (⌊r⌋ : ℚ) := by linarith
    unfold round_half_even
    rw [hf']
    split_ifs <;> first | omega | (exfalso; linarith)

lemma py_round5_mono {q r : ℚ} (h : q ≤ r) : py_round5 q ≤ py_round5 r := by
  unfold py_round5
  have hm : round_half_even (q * 100000) ≤ round_half_even (r * 100000) :=
    round_half_even_mono (by linarith)
  have : (round_half_even (q * 100000) : ℚ) ≤ round_half_even (r * 100000) := by
    exact_mod_cast hm
  linarith

lemma py_round5_zero : py_round5 0 = 0 := by
  unfold py_round5
  rw [show ((0 : ℚ) * 100000) = ((0 : ℤ) : ℚ) by norm_num,
    round_half_even_intCast]
  norm_num

lemma py_round5_hundred : py_round5 100 = 100 := by
  unfold py_round5
  rw [show ((100 : ℚ) * 100000) = ((10000000 : ℤ) : ℚ) by norm_num,
    round_half_even_intCast]
  norm_num

lemma py_round5_bounds {q : ℚ} (h0 : 0 ≤ q) (h1 : q ≤ 100) :
    0 ≤ py_round5 q ∧ py_round5 q ≤ 100 :=
  ⟨py_round5_zero ▸ py_round5_mono h0, py_round5_hundred ▸ py_round5_mono h1⟩

/-! ## Facts about `extract` -/

lemma extract_length_le (q : String) (ref : List RefEntry) (limit : Nat) :
    (extract q ref limit).length ≤ limit := by
  unfold extract
  rw [List.length_take]
  exact inf_le_left

lemma mem_extract {q : String} {ref : List RefEntry} {limit : Nat}
    {c : String × ℚ × Nat} (h : c ∈ extract q ref limit) :
    ∃ hlt : c.2.2 < ref.length,
      c.1 = (ref.get ⟨c.2.2, hlt⟩).description
        ∧ c.2.1 = token_sort_score q c.1 := by
  unfold extract at h
  have h1 := (List.perm_insertionSort
    (fun x y : String × ℚ × Nat => y.2.1 ≤ x.2.1) _).mem_iff.mp
    (List.mem_of_mem_take h)
  rw [List.mem_map] at h1
  obtain ⟨p, hp, hpc⟩ := h1
  obtain ⟨i, e⟩ := p
  obtain ⟨hi, he⟩ := List.mem_enum hp
  subst hpc
  exact ⟨hi, by simp [List.get_eq_getElem, he], by simp⟩

lemma extract_sorted (q : String) (ref : List RefEntry) (limit : Nat) :
    List.Pairwise (fun x y : String × ℚ × Nat => y.2.1 ≤ x.2.1)
      (extract q ref limit) := by
  unfold extract
  haveI : IsTotal (String × ℚ × Nat) (fun x y => y.2.1 ≤ x.2.1) :=
    ⟨fun a b => le_total b.2.1 a.2.1⟩
  haveI : IsTrans (String × ℚ × Nat) (fun x y => y.2.1 ≤ x.2.1) :=
    ⟨fun a b c hab hbc => le_trans hbc hab⟩
  have hs := List.sorted_insertionSort
    (fun x y : String × ℚ × Nat => y.2.1 ≤ x.2.1)
    (ref.enum.map
      (fun p => (p.2.description, token_sort_score q p.2.description, p.1)))
  exact hs.sublist (List.take_sublist _ _)

/-! ## Unfolding lemmas and lemmatised-token facts -/

lemma preprocess_input_def (lm : String → String) (s : String) :
    preprocess_input lm s = String.mk (join_chars
      ((words_chars (strip_chars (collapse_chars (sub_chars
        (lower_chars s.data))))).map (fun w => (lm (String.mk w)).data))) :=
  rfl

lemma find_icd_def (embedder : String → List ℚ) (q : String)
    (ref : List RefEntry) (k : Nat) :
    find_icd_with_embedding embedder q ref k = (extract q ref k).map (fun c =>
      { icd_code := (ref.getD c.2.2 ⟨"", ""⟩).code
        icd_description := c.1
        text_score := py_round5 c.2.1
        justification := "Matched '" ++ c.1 ++ "' (" ++ format_float c.2.1
          ++ "%) based on fuzzy logic and ICD-10 vector proximity." }) :=
  rfl

lemma lemmatized_tokens_ne_nil {lm : String → String}
    (hne : ∀ t : String, t ≠ "" → lm t ≠ "") (l : List Char) :
    ∀ t ∈ (words_chars l).map (fun w => (lm (String.mk w)).data), t ≠ [] := by
  intro t ht
  rw [List.mem_map] at ht
  obtain ⟨w, hw, rfl⟩ := ht
  have hw' : String.mk w ≠ "" := by
    intro hcon
    exact words_chars_ne_nil w hw (congrArg String.data hcon)
  intro hcon
  exact hne (String.mk w) hw' (String.ext hcon)

lemma lemmatized_tokens_tokchar {lm : String → String}
    (hchar : ∀ t : String, ∀ c ∈ (lm t).data, isTokenChar c = true)
    (l : List Char) :
    ∀ t ∈ (words_chars l).map (fun w => (lm (String.mk w)).data),
      ∀ c ∈ t, isTokenChar c = true := by
  intro t ht
  rw [List.mem_map] at ht
  obtain ⟨w, hw, rfl⟩ := ht
  exact hchar (String.mk w)

lemma join_tokens_shape {ts : List (List Char)}
    (hne_ts : ∀ t ∈ ts, t ≠ [])
    (htok_ts : ∀ t ∈ ts, ∀ c ∈ t, isTokenChar c = true) :
    (∀ c ∈ join_chars ts, isTokenChar c = true ∨ c = ' ') ∧
    List.Chain' (fun a b : Char => ¬(a = ' ' ∧ b = ' ')) (join_chars ts) ∧
    (∀ c ∈ (join_chars ts).head?, c ≠ ' ') ∧
    (∀ c ∈ (join_chars ts).getLast?, c ≠ ' ') := by
  have hsp : ∀ t ∈ ts, ∀ c ∈ t, isPySpace c = false :=
    fun t ht c hc => isPySpace_eq_false_of_token (htok_ts t ht c hc)
  have hnspace : ∀ t ∈ ts, ∀ c ∈ t, c ≠ ' ' := by
    intro t ht c hc hcon
    subst hcon
    exact absurd (hsp t ht ' ' hc) (by decide)
  refine ⟨?_, ?_, ?_, ?_⟩
  · intro c hc
    rcases mem_join_chars hc with ⟨t, ht, hct⟩ | h
    · exact Or.inl (htok_ts t ht c hct)
    · exact Or.inr h
  · refine (join_chars_chain hne_ts hsp).imp ?_
    rintro a b hab ⟨rfl, rfl⟩
    rcases hab with h | h <;> revert h <;> decide
  · intro c hc
    cases ts with
    | nil => simp [join_chars] at hc
    | cons t ts' =>
      exact hnspace t (by simp) c
        (head_mem_join_chars (hne_ts t (by simp)) hc)
  · intro c hc
    obtain ⟨t, ht, hct⟩ := getLast_mem_join_chars hne_ts hc
    exact hnspace t ht c hct

/-! ## The claims

Each theorem below settles one claim of the specification review; the doc
comment names the claim.  The concrete witnesses evaluate the embedded
functions inside the kernel, which needs a higher recursion limit. -/

set_option maxRecDepth 100000

/-- Claim C1: for every query, reference table and `top_k ≥ 1`,
`find_icd_with_embedding` returns at most `top_k` results, each with a
score in `[0, 100]`, and the returned list is sorted in descending order
of score. -/
theorem find_icd_topk_bounded_sorted (embedder : String → List ℚ)
    (q : String) (ref : List RefEntry) (top_k : Nat) (h : 1 ≤ top_k) :
    (find_icd_with_embedding embedder q ref top_k).length ≤ top_k ∧
    (∀ m ∈ find_icd_with_embedding embedder q ref top_k,
      0 ≤ m.text_score ∧ m.text_score ≤ 100) ∧
    List.Pairwise (fun m n : MatchResult => n.text_score ≤ m.text_score)
      (find_icd_with_embedding embedder q ref top_k) := by
  rw [find_icd_def]
  refine ⟨?_, ?_, ?_⟩
  · rw [List.length_map]
    exact extract_length_le q ref top_k
  · intro m hm
    rw [List.mem_map] at hm
    obtain ⟨c, hc, rfl⟩ := hm
    obtain ⟨hlt, _, hscore⟩ := mem_extract hc
    have hb := token_sort_score_bounds q c.1
    rw [hscore] at *
    exact py_round5_bounds hb.1 hb.2
  · rw [List.pairwise_map]
    exact (extract_sorted q ref top_k).imp (fun h => py_round5_mono h)

/-- Witness for C1 at a concrete instantiation. -/
theorem find_icd_topk_bounded_sorted_witness :
    (find_icd_with_embedding (fun _ => []) "flu" [⟨"J11", "flu"⟩] 1).length ≤ 1 ∧
    (∀ m ∈ find_icd_with_embedding (fun _ => []) "flu" [⟨"J11", "flu"⟩] 1,
      0 ≤ m.text_score ∧ m.text_score ≤ 100) ∧
    List.Pairwise (fun m n : MatchResult => n.text_score ≤ m.text_score)
      (find_icd_with_embedding (fun _ => []) "flu" [⟨"J11", "flu"⟩] 1) :=
  find_icd_topk_bounded_sorted (fun _ => []) "flu" [⟨"J11", "flu"⟩] 1
    (by decide)

/-- The concrete match record produced by the matcher on the one-row
reference table `[⟨"J11", "flu"⟩]` and the query `"flu"`; used by the
concrete witnesses below. -/
def demo_match : MatchResult :=
  ⟨"J11", "flu", 100,
    "Matched 'flu' (100.0%) based on fuzzy logic and ICD-10 vector proximity."⟩

/-- Claim C2, counterexample: at a concrete input the justification the code
produces is NOT an instance of the template
`Matched '<description>' (<score>%) based on fuzzy text similarity.`
claimed by the specification — the fixed trailing text actually reads
`based on fuzzy logic and ICD-10 vector proximity.`, and the phrase
`fuzzy text similarity` occurs nowhere in it. -/
theorem justification_template_counterexample :
    ∃ m ∈ find_icd_with_embedding (fun _ => []) "flu" [⟨"J11", "flu"⟩] 3,
      m.justification ≠ "Matched 'flu' (100.0%) based on fuzzy text similarity."
      ∧ ¬ ("fuzzy text similarity".data <:+: m.justification.data)
      ∧ ("based on fuzzy logic and ICD-10 vector proximity.".data
          <:+: m.justification.data) := by
  exact ⟨demo_match, by with_unfolding_all decide, by decide, by decide,
    by decide⟩

/-- Claim C2 as amended: for every match returned, the justification is
exactly the fixed template
`Matched '<description>' (<score>%) based on fuzzy logic and ICD-10 vector
proximity.` instantiated with that match's description and raw score; it is
a fixed template (the embedder-independence of the whole result list is
proved separately for claim C7). -/
theorem justification_fixed_template (embedder : String → List ℚ)
    (q : String) (ref : List RefEntry) (k : Nat) :
    ∀ m ∈ find_icd_with_embedding embedder q ref k,
      m.justification = "Matched '" ++ m.icd_description ++ "' ("
        ++ format_float (token_sort_score q m.icd_description)
        ++ "%) based on fuzzy logic and ICD-10 vector proximity." := by
  intro m hm
  rw [find_icd_def, List.mem_map] at hm
  obtain ⟨c, hc, rfl⟩ := hm
  obtain ⟨hlt, _, hscore⟩ := mem_extract hc
  show "Matched '" ++ c.1 ++ "' (" ++ format_float c.2.1
      ++ "%) based on fuzzy logic and ICD-10 vector proximity." = _
  rw [hscore]

/-- Witness for the amended C2 at a concrete instantiation. -/
theorem justification_fixed_template_witness :
    ∃ m ∈ find_icd_with_embedding (fun _ => []) "flu" [⟨"J11", "flu"⟩] 3,
      m.justification = "Matched '" ++ m.icd_description ++ "' ("
        ++ format_float (token_sort_score "flu" m.icd_description)
        ++ "%) based on fuzzy logic and ICD-10 vector proximity." :=
  ⟨demo_match, by with_unfolding_all decide,
    justification_fixed_template (fun _ => []) "flu" [⟨"J11", "flu"⟩] 3
      demo_match (by with_unfolding_all decide)⟩

/-- Claim C3: for every input string that is empty or consists only of
whitespace, `process_diagnosis` returns the user-visible rejection message.
The matcher is a universally quantified parameter here, so the result being
`rejection_message` for EVERY matcher shows the matcher is never invoked on
such input. -/
theorem process_diagnosis_rejects_blank (lemmatizer : String → String)
    (matcher : String → List RefEntry → Nat → List MatchResult)
    (ref : List RefEntry) (input_text : String)
    (h : ∀ c ∈ input_text.data, isPySpace c = true) :
    process_diagnosis lemmatizer matcher ref input_text = rejection_message := by
  have hstrip : strip_chars input_text.data = [] := by
    unfold strip_chars
    rw [List.dropWhile_eq_nil_iff.mpr h]
    rfl
  unfold process_diagnosis
  rw [hstrip]
  rw [if_pos (show String.mk [] = "" from by with_unfolding_all rfl)]

/-- Witness for C3 at a concrete instantiation: three spaces. -/
theorem process_diagnosis_rejects_blank_witness :
    process_diagnosis (fun t => t) (fun _ _ _ => []) [] "   "
      = rejection_message :=
  process_diagnosis_rejects_blank (fun t => t) (fun _ _ _ => []) [] "   "
    (by decide)

/-- Claim C4: the text normaliser is idempotent.  The external WordNet
lemmatiser is modelled as an abstract parameter; the hypotheses state its
interface as the design describes it ("reduce each token to its dictionary
base form"): a lemma consists of lowercase letters, digits and hyphens, a
nonempty token has a nonempty lemma, and a base form is its own base
form. -/
theorem preprocess_input_idempotent (lemmatizer : String → String)
    (hchar : ∀ t : String, ∀ c ∈ (lemmatizer t).data, isTokenChar c = true)
    (hne : ∀ t : String, t ≠ "" → lemmatizer t ≠ "")
    (hidem : ∀ t : String, lemmatizer (lemmatizer t) = lemmatizer t)
    (s : String) :
    preprocess_input lemmatizer (preprocess_input lemmatizer s)
      = preprocess_input lemmatizer s := by
  rw [preprocess_input_def lemmatizer s]
  rw [preprocess_input_def lemmatizer
    (String.mk (join_chars ((words_chars (strip_chars (collapse_chars
      (sub_chars (lower_chars s.data))))).map
        (fun w => (lemmatizer (String.mk w)).data))))]
  have hne_ts := lemmatized_tokens_ne_nil hne
    (strip_chars (collapse_chars (sub_chars (lower_chars s.data))))
  have htok_ts := lemmatized_tokens_tokchar hchar
    (strip_chars (collapse_chars (sub_chars (lower_chars s.data))))
  rw [show (String.mk (join_chars ((words_chars (strip_chars (collapse_chars
      (sub_chars (lower_chars s.data))))).map
        (fun w => (lemmatizer (String.mk w)).data)))).data
      = join_chars ((words_chars (strip_chars (collapse_chars
          (sub_chars (lower_chars s.data))))).map
            (fun w => (lemmatizer (String.mk w)).data)) from rfl]
  rw [pipeline_tokens_join hne_ts htok_ts]
  congr 1
  congr 1
  apply map_id_of_mem
  intro t ht
  rw [List.mem_map] at ht
  obtain ⟨w, hw, rfl⟩ := ht
  show (lemmatizer (String.mk ((lemmatizer (String.mk w)).data))).data
    = (lemmatizer (String.mk w)).data
  rw [show String.mk ((lemmatizer (String.mk w)).data)
    = lemmatizer (String.mk w) from rfl]
  rw [hidem]

/-- Witness for C4 at a concrete instantiation (a constant normalising
lemmatiser and mixed-case punctuated input). -/
theorem preprocess_input_idempotent_witness :
    preprocess_input (fun _ => "x") (preprocess_input (fun _ => "x") "Flu!!")
      = preprocess_input (fun _ => "x") "Flu!!" :=
  preprocess_input_idempotent (fun _ => "x")
    (fun t => show ∀ c ∈ ("x" : String).data, isTokenChar c = true by decide)
    (fun t h => show ("x" : String) ≠ "" by with_unfolding_all decide)
    (fun t => rfl) "Flu!!"

/-- Claim C5: the output of `preprocess_input` contains only lowercase
letters, digits, hyphens and single spaces — no other characters, and no
leading, trailing or consecutive whitespace.  (`isTokenChar` is exactly
"lowercase ASCII letter, digit or hyphen".)  The lemmatiser hypotheses are
as in C4. -/
theorem preprocess_input_output_charset (lemmatizer : String → String)
    (hchar : ∀ t : String, ∀ c ∈ (lemmatizer t).data, isTokenChar c = true)
    (hne : ∀ t : String, t ≠ "" → lemmatizer t ≠ "")
    (s : String) :
    (∀ c ∈ (preprocess_input lemmatizer s).data,
      isTokenChar c = true ∨ c = ' ') ∧
    List.Chain' (fun a b : Char => ¬(a = ' ' ∧ b = ' '))
      (preprocess_input lemmatizer s).data ∧
    (∀ c ∈ (preprocess_input lemmatizer s).data.head?, c ≠ ' ') ∧
    (∀ c ∈ (preprocess_input lemmatizer s).data.getLast?, c ≠ ' ') := by
  have hd : (preprocess_input lemmatizer s).data
      = join_chars ((words_chars (strip_chars (collapse_chars
          (sub_chars (lower_chars s.data))))).map
            (fun w => (lemmatizer (String.mk w)).data)) := rfl
  rw [hd]
  exact join_tokens_shape
    (lemmatized_tokens_ne_nil hne _)
    (lemmatized_tokens_tokchar hchar _)

/-- Witness for C5 at a concrete instantiation. -/
theorem preprocess_input_output_charset_witness :
    (∀ c ∈ (preprocess_input (fun _ => "x") "Flu!!").data,
      isTokenChar c = true ∨ c = ' ') ∧
    List.Chain' (fun a b : Char => ¬(a = ' ' ∧ b = ' '))
      (preprocess_input (fun _ => "x") "Flu!!").data ∧
    (∀ c ∈ (preprocess_input (fun _ => "x") "Flu!!").data.head?, c ≠ ' ') ∧
    (∀ c ∈ (preprocess_input (fun _ => "x") "Flu!!").data.getLast?, c ≠ ' ') :=
  preprocess_input_output_charset (fun _ => "x")
    (fun t => show ∀ c ∈ ("x" : String).data, isTokenChar c = true by decide)
    (fun t h => show ("x" : String) ≠ "" by with_unfolding_all decide)
    "Flu!!"

/-- Claim C6: matching any query against an empty reference table returns
the empty list, for every query and every `top_k`. -/
theorem find_icd_empty_ref (embedder : String → List ℚ) (q : String)
    (top_k : Nat) :
    find_icd_with_embedding embedder q [] top_k = [] := by
  rw [find_icd_def]
  simp [extract]

/-- Claim C7: the result of `find_icd_with_embedding` does not depend on the
trained embedding model: any two embedders produce equal result lists (in
particular identical `icd_code`, `icd_description` and `text_score` fields),
because the per-candidate vector `vec_diag` is computed but never used. -/
theorem find_icd_embedder_irrelevant (embedder1 embedder2 : String → List ℚ)
    (q : String) (ref : List RefEntry) (top_k : Nat) :
    find_icd_with_embedding embedder1 q ref top_k
      = find_icd_with_embedding embedder2 q ref top_k :=
  rfl

/-- Claim C8: reference-table construction is total and failure-tolerant —
every code yields a row, a failed or empty description lookup degrades to
the empty string, and no per-entry failure aborts the construction (the
table has exactly one row per code). -/
theorem icd_ref_swallows_failures
    (find : String → Except Unit (Option String)) (codes : List String) :
    (icd_ref find codes).length = codes.length ∧
    ∀ code ∈ codes,
      (⟨code, desc_of (find code)⟩ : RefEntry) ∈ icd_ref find codes ∧
      ((find code = .error () ∨ find code = .ok none) →
        desc_of (find code) = "") := by
  constructor
  · exact List.length_map codes _
  · intro code hc
    constructor
    · exact List.mem_map_of_mem _ hc
    · rintro (h | h) <;> rw [h] <;> rfl

/-- Witness for C8 at a concrete instantiation: a lookup that always raises
still yields a row, with an empty description. -/
theorem icd_ref_swallows_failures_witness :
    (⟨"A00", ""⟩ : RefEntry) ∈ icd_ref (fun _ => .error ()) ["A00"] := by
  have h := (icd_ref_swallows_failures (fun _ => .error ()) ["A00"]).2
    "A00" (by decide)
  exact h.2 (Or.inl rfl) ▸ h.1

/-- Claim C9: for every match returned by the matcher, the `text_score`
field equals the raw similarity score of the query against the match's
description, rounded to 5 decimal places. -/
theorem find_icd_text_score_rounded (embedder : String → List ℚ)
    (q : String) (ref : List RefEntry) (top_k : Nat) :
    ∀ m ∈ find_icd_with_embedding embedder q ref top_k,
      m.text_score = py_round5 (token_sort_score q m.icd_description) := by
  intro m hm
  rw [find_icd_def, List.mem_map] at hm
  obtain ⟨c, hc, rfl⟩ := hm
  obtain ⟨hlt, _, hscore⟩ := mem_extract hc
  show py_round5 c.2.1 = py_round5 (token_sort_score q c.1)
  rw [hscore]

/-- Witness for C9 at a concrete instantiation. -/
theorem find_icd_text_score_rounded_witness :
    ∃ m ∈ find_icd_with_embedding (fun _ => []) "flu" [⟨"J11", "flu"⟩] 3,
      m.text_score = py_round5 (token_sort_score "flu" m.icd_description) :=
  ⟨demo_match, by with_unfolding_all decide,
    find_icd_text_score_rounded (fun _ => []) "flu" [⟨"J11", "flu"⟩] 3
      demo_match (by with_unfolding_all decide)⟩

/-- Claim C10: every returned match's `icd_code` and `icd_description` come
from the same reference-table row — the row selected by the similarity
search. -/
theorem find_icd_code_description_same_row (embedder : String → List ℚ)
    (q : String) (ref : List RefEntry) (top_k : Nat) :
    ∀ m ∈ find_icd_with_embedding embedder q ref top_k,
      ∃ i, ∃ hi : i < ref.length,
        m.icd_code = (ref.get ⟨i, hi⟩).code ∧
        m.icd_description = (ref.get ⟨i, hi⟩).description := by
  intro m hm
  rw [find_icd_def, List.mem_map] at hm
  obtain ⟨c, hc, rfl⟩ := hm
  obtain ⟨hlt, hdesc, _⟩ := mem_extract hc
  refine ⟨c.2.2, hlt, ?_, hdesc⟩
  show (ref.getD c.2.2 ⟨"", ""⟩).code = (ref.get ⟨c.2.2, hlt⟩).code
  rw [List.getD_eq_getElem ref _ hlt, List.get_eq_getElem]

/-- Witness for C10 at a concrete instantiation. -/
theorem find_icd_code_description_same_row_witness :
    ∃ i, ∃ hi : i < ([⟨"J11", "flu"⟩] : List RefEntry).length,
      demo_match.icd_code
        = (([⟨"J11", "flu"⟩] : List RefEntry).get ⟨i, hi⟩).code ∧
      demo_match.icd_description
        = (([⟨"J11", "flu"⟩] : List RefEntry).get ⟨i, hi⟩).description :=
  find_icd_code_description_same_row (fun _ => []) "flu" [⟨"J11", "flu"⟩] 3
    demo_match (by with_unfolding_all decide)

end NidanaMap
